import Mathlib

/-!
Shallow embedding of src/mlp.py (a fully connected multilayer perceptron
trained by mini-batch gradient descent with hand-coded backpropagation).

Modelling conventions:
* numpy column vectors of shape (n, 1) are modelled as `List ℚ`; the
  `reshape(n, 1)` call in the source is the identity on this representation.
* numpy float64 arithmetic is modelled by exact rational arithmetic.
* Layer sizes (Python ints used as dimensions) are modelled as `Nat`.
* The pluggable functions (activation, loss derivative, ...) are opaque
  function-valued fields of the network structure, exactly as the source
  stores them on `self`.
* `pandas` rows are modelled as a pair of the feature vector (the row with
  the class column dropped) and the class-column value.
* `DataFrame.sample(n)` (random sampling without replacement, an external
  collaborator of the core) is modelled by an injected `pick` function
  returning the selected rows and the remaining rows; `ValidPick` states
  exactly the without-replacement contract.  Negative sample sizes make
  pandas raise, which is modelled with `Except`.
* The unbounded `while` loop of `initialize_mini_batches` and the
  `train` loop are modelled with explicit fuel; a `none` result means the
  loop did not finish within the given fuel.
-/

abbrev Vec := List ℚ

abbrev Mat := List (List ℚ)

/-- A dataset row: the feature columns and the class-column value. -/
abbrev Row := Vec × ℚ

/-- Dot product of two vectors (`np.dot` on flat vectors). -/
def dotProd (u v : Vec) : ℚ :=
  (List.zipWith (fun x y => x * y) u v).sum

/-- Matrix times column vector, `np.dot(w, a)`. -/
def matVec (w : Mat) (a : Vec) : Vec :=
  w.map (fun row => dotProd row a)

/-- Elementwise vector addition (numpy `+`). -/
def vAdd (u v : Vec) : Vec :=
  List.zipWith (fun x y => x + y) u v

/-- Elementwise vector subtraction (numpy `-`). -/
def vSub (u v : Vec) : Vec :=
  List.zipWith (fun x y => x - y) u v

/-- Elementwise vector product (numpy `*`). -/
def hadamard (u v : Vec) : Vec :=
  List.zipWith (fun x y => x * y) u v

/-- Scalar times vector. -/
def vScale (c : ℚ) (v : Vec) : Vec :=
  v.map (fun x => c * x)

/-- Vector divided by a scalar. -/
def vDivC (v : Vec) (c : ℚ) : Vec :=
  v.map (fun x => x / c)

/-- `np.zeros(b.shape)` for a vector `b`. -/
def zerosV (b : Vec) : Vec :=
  b.map (fun _ => 0)

/-- Elementwise matrix addition. -/
def mAdd (x y : Mat) : Mat :=
  List.zipWith vAdd x y

/-- Elementwise matrix subtraction. -/
def mSub (x y : Mat) : Mat :=
  List.zipWith vSub x y

/-- Scalar times matrix. -/
def mScale (c : ℚ) (x : Mat) : Mat :=
  x.map (vScale c)

/-- Matrix divided by a scalar. -/
def mDivC (x : Mat) (c : ℚ) : Mat :=
  x.map (fun row => vDivC row c)

/-- `np.zeros(w.shape)` for a matrix `w`. -/
def zerosM (w : Mat) : Mat :=
  w.map zerosV

/-- Outer product `np.dot(u, v.transpose())` of two column vectors. -/
def outerProd (u v : Vec) : Mat :=
  u.map (fun x => v.map (fun y => x * y))

/-- Transposed matrix times column vector, `np.dot(w.transpose(), v)`:
entry `j` is the dot product of column `j` of `w` with `v`. -/
def matTvec (w : Mat) (v : Vec) : Vec :=
  (List.range (w.headD []).length).map
    (fun j => dotProd (w.map (fun row => row.getD j 0)) v)

/-- The network state of `class MLP`: the pluggable functions stored by
`__init__` together with the weight and bias lists. -/
structure MLP where
  activation : Vec → Vec
  loss_derv : Vec → Vec → Vec
  activation_derv : Vec → Vec
  output_activ : Vec → Vec
  output_derv : Vec → Vec
  target_fit : ℚ → Vec
  weight_init : Nat → Nat → Mat
  bias_init : Nat → Vec
  weights : List Mat
  biases : List Vec

/-- `MLP.__init_weights`: one matrix per pair of consecutive layer sizes,
`zip(lsizes[1:], lsizes[:-1])`. -/
def init_weights (weight_init : Nat → Nat → Mat) (lsizes : List Nat) : List Mat :=
  ((lsizes.drop 1).zip lsizes.dropLast).map (fun p => weight_init p.1 p.2)

/-- `MLP.__init_biases`: one bias vector per non-input layer size. -/
def init_biases (bias_init : Nat → Vec) (lsizes : List Nat) : List Vec :=
  (lsizes.drop 1).map bias_init

/-- `MLP.__init__`: stores the pluggable functions and builds the
weight/bias lists from the layer-size sequence.  The source performs no
validation of `layers_sizes`. -/
def mkMLP (layers_sizes : List Nat)
    (activation_func : Vec → Vec) (loss_derv : Vec → Vec → Vec)
    (activation_derv : Vec → Vec) (output_func : Vec → Vec)
    (output_derv : Vec → Vec) (target_fit : ℚ → Vec)
    (weight_init : Nat → Nat → Mat) (bias_init : Nat → Vec) : MLP :=
  { activation := activation_func
    loss_derv := loss_derv
    activation_derv := activation_derv
    output_activ := output_func
    output_derv := output_derv
    target_fit := target_fit
    weight_init := weight_init
    bias_init := bias_init
    weights := init_weights weight_init layers_sizes
    biases := init_biases bias_init layers_sizes }

/-- The hidden-layer loop of `feed_forward` /`get_activations_and_zs`:
`for w, b in zip(self.weights[:-1], self.biases[:-1])`.  Returns the list
of activations appended by the loop, the list of pre-activations appended
by the loop, and the running activation after the loop. -/
def traceLoop (net : MLP) : List (Mat × Vec) → Vec → List Vec × List Vec × Vec
  | [], a => ([], [], a)
  | wb :: rest, a =>
    let z := vAdd (matVec wb.1 a) wb.2
    let a2 := net.activation z
    let r := traceLoop net rest a2
    (a2 :: r.1, z :: r.2.1, r.2.2)

/-- `MLP.feed_forward`: hidden layers with `activation`, final layer with
`output_activ`.  The initial `reshape` is the identity here. -/
def feed_forward (net : MLP) (a0 : Vec) : Vec :=
  let a := (net.weights.dropLast.zip net.biases.dropLast).foldl
    (fun a wb => net.activation (vAdd (matVec wb.1 a) wb.2)) a0
  net.output_activ (vAdd (matVec (net.weights.getLastD []) a) (net.biases.getLastD []))

/-- `MLP.get_activations_and_zs`: the same recurrence as `feed_forward`,
recording every activation (the input first) and every pre-activation. -/
def get_activations_and_zs (net : MLP) (a0 : Vec) : List Vec × List Vec :=
  let r := traceLoop net (net.weights.dropLast.zip net.biases.dropLast) a0
  let z := vAdd (matVec (net.weights.getLastD []) r.2.2) (net.biases.getLastD [])
  let aL := net.output_activ z
  (a0 :: r.1 ++ [aL], r.2.1 ++ [z])

/-- The loop `for i in range(len(self.weights) - 2, -1, -1)` of
`MLP.backward`.  The counter is the number of remaining iterations; a call
with counter `k + 1` executes the body at `i = k`. -/
def backwardLoop (net : MLP) (activs zs : List Vec) :
    Nat → Vec → List Mat → List Vec → List Mat × List Vec
  | 0, _, weight_dervs, bias_dervs => (weight_dervs, bias_dervs)
  | k + 1, ld, weight_dervs, bias_dervs =>
    let ld2 := hadamard (matTvec (net.weights.getD (k + 1) []) ld)
      (net.activation_derv (zs.getD k []))
    backwardLoop net activs zs k ld2
      (weight_dervs.set k (outerProd ld2 (activs.getD k [])))
      (bias_dervs.set k ld2)

/-- `MLP.backward`: zero-shaped gradient lists, the traced forward pass,
the output-layer error signal, the `[-1]` assignments, then the downward
loop over the remaining layers. -/
def backward (net : MLP) (a targets : Vec) : List Mat × List Vec :=
  let weight_dervs := net.weights.map zerosM
  let bias_dervs := net.biases.map zerosV
  let azs := get_activations_and_zs net a
  let activs := azs.1
  let zs := azs.2
  let ld := hadamard (net.loss_derv (activs.getLastD []) targets)
    (net.output_derv (zs.getLastD []))
  let bias_dervs := bias_dervs.set (net.biases.length - 1) ld
  let weight_dervs := weight_dervs.set (net.weights.length - 1)
    (outerProd ld (activs.getD (activs.length - 2) []))
  backwardLoop net activs zs (net.weights.length - 1) ld weight_dervs bias_dervs

/-- `MLP.process_batch`: zero accumulators, the class column mapped through
`target_fit`, the feature columns, the per-example accumulation loop, and
the mean-gradient descent update of both parameter lists. -/
def process_batch (net : MLP) (batch : List Row) (learning_rate : ℚ) : MLP :=
  let weight_gradient := net.weights.map zerosM
  let bias_gradient := net.biases.map zerosV
  let classes := (batch.map Prod.snd).map net.target_fit
  let inputs := batch.map Prod.fst
  let acc := (inputs.zip classes).foldl
    (fun acc p =>
      let ds := backward net p.1 p.2
      (List.zipWith mAdd acc.1 ds.1, List.zipWith vAdd acc.2 ds.2))
    (weight_gradient, bias_gradient)
  { net with
    weights := List.zipWith
      (fun weight w_grad => mSub weight (mDivC (mScale learning_rate w_grad) (inputs.length : ℚ)))
      net.weights acc.1
    biases := List.zipWith
      (fun bias b_grad => vSub bias (vDivC (vScale learning_rate b_grad) (inputs.length : ℚ)))
      net.biases acc.2 }

/-- The without-replacement contract of `DataFrame.sample(n)` followed by
`DataFrame.drop(sampled.index)`: `pick n d` returns the sampled rows and
the remaining rows. -/
def ValidPick {α : Type} (pick : Nat → List α → List α × List α) : Prop :=
  ∀ n d, (pick n d).1.length = min n d.length ∧ ((pick n d).1 ++ (pick n d).2).Perm d

/-- A concrete without-replacement sampler: take the first `n` rows. -/
def takeDropPick {α : Type} (n : Nat) (d : List α) : List α × List α :=
  (d.take n, d.drop n)

/-- `pandas.DataFrame.sample(n)` raises for negative `n`; otherwise sample
without replacement via the injected `pick`. -/
def sampleRows {α : Type} (pick : Nat → List α → List α × List α) (n : Int)
    (d : List α) : Except String (List α × List α) :=
  if n < 0 then Except.error "Cannot take a negative number of rows"
  else Except.ok (pick n.toNat d)

/-- `MLP.initialize_mini_batches`, with fuel for the unbounded `while` loop:
while the data is non-empty, sample `min(mini_batch_size, len(t_data))`
rows, append them as a batch, and drop them from the data.  `none` means
the loop did not terminate within `fuel` iterations. -/
def init_mini_batches {α : Type} (pick : Nat → List α → List α × List α)
    (mini_batch_size : Int) :
    Nat → List α → Option (Except String (List (List α)))
  | 0, _ => none
  | fuel + 1, t_data =>
    if t_data.isEmpty then some (Except.ok [])
    else
      match sampleRows pick (min mini_batch_size (t_data.length : Int)) t_data with
      | Except.error e => some (Except.error e)
      | Except.ok s =>
        match init_mini_batches pick mini_batch_size fuel s.2 with
        | none => none
        | some (Except.error e) => some (Except.error e)
        | some (Except.ok bs) => some (Except.ok (s.1 :: bs))

/-- `MLP.train`: the epoch loop.  Each epoch partitions the data, processes
every batch in order, and prints one completion message; the second
component of the result counts those per-epoch messages.  `none` means the
partition loop of some epoch did not terminate within `fuel`. -/
def trainFuel (pick : Nat → List Row → List Row × List Row) (net : MLP)
    (training_data : List Row) (mini_batch_size : Int) (learning_rate : ℚ) :
    Nat → Nat → Option (Except String (MLP × Nat))
  | 0, _ => some (Except.ok (net, 0))
  | epochs + 1, fuel =>
    match init_mini_batches pick mini_batch_size fuel training_data with
    | none => none
    | some (Except.error e) => some (Except.error e)
    | some (Except.ok mini_batches) =>
      let net2 := mini_batches.foldl (fun n b => process_batch n b learning_rate) net
      match trainFuel pick net2 training_data mini_batch_size learning_rate epochs fuel with
      | none => none
      | some (Except.error e) => some (Except.error e)
      | some (Except.ok r) => some (Except.ok (r.1, r.2 + 1))

/-- `MLP.predict`: `feed_forward` on each row of the dataset, in order. -/
def predict (net : MLP) (X : List Vec) : List Vec :=
  X.map (fun row => feed_forward net row)

/-! ### Spec-side definitions

These follow the wording of the specification and of the claims; each
claim theorem compares one of them with the corresponding source-derived
definition above. -/

/-- The forward recurrence as the spec states it: hidden layers with
`activation`, the single final layer with `outputActivation`. -/
def specForward (net : MLP) : List (Mat × Vec) → Vec → Vec
  | [], a => a
  | [wb], a => net.output_activ (vAdd (matVec wb.1 a) wb.2)
  | wb :: wb2 :: rest, a =>
    specForward net (wb2 :: rest) (net.activation (vAdd (matVec wb.1 a) wb.2))

/-- The traced forward recurrence as the spec states it: the same
recurrence as `specForward`, recording every activation (the input at
index 0) and every pre-activation in order. -/
def specTrace (net : MLP) : List (Mat × Vec) → Vec → List Vec × List Vec
  | [], a => ([a], [])
  | [wb], a =>
    let z := vAdd (matVec wb.1 a) wb.2
    ([a, net.output_activ z], [z])
  | wb :: wb2 :: rest, a =>
    let z := vAdd (matVec wb.1 a) wb.2
    let r := specTrace net (wb2 :: rest) (net.activation z)
    (a :: r.1, z :: r.2)

/-- The output-layer error signal of the spec:
`lossDerivative(Activations[L], target) ⊙ outputDerivative(PreActivations[L-1])`. -/
def outputDelta (net : MLP) (activs zs : List Vec) (t : Vec) : Vec :=
  hadamard (net.loss_derv (activs.getLastD []) t) (net.output_derv (zs.getLastD []))

/-- The backpropagated error signal `j` layers below the output layer:
`deltaDown net zs dtop j` is the spec's `δ` for layer `L - 1 - j`,
obtained from the output signal `dtop` by `j` steps of
`δ ← (Weight[i+1]ᵗ · δ) ⊙ activationDerivative(PreActivations[i])`. -/
def deltaDown (net : MLP) (zs : List Vec) (dtop : Vec) : Nat → Vec
  | 0 => dtop
  | j + 1 =>
    hadamard
      (matTvec (net.weights.getD (net.weights.length - 1 - j) [])
        (deltaDown net zs dtop j))
      (net.activation_derv (zs.getD (net.weights.length - 2 - j) []))

/-- The Backward Engine output as the claim states it: for every layer
`i`, the bias gradient is `δᵢ` and the weight gradient is
`δᵢ · Activations[i]ᵗ`. -/
def specBackward (net : MLP) (a t : Vec) : List Mat × List Vec :=
  let azs := get_activations_and_zs net a
  let L := net.weights.length
  let dtop := outputDelta net azs.1 azs.2 t
  ((List.range L).map (fun i => outerProd (deltaDown net azs.2 dtop (L - 1 - i)) (azs.1.getD i [])),
   (List.range L).map (fun i => deltaDown net azs.2 dtop (L - 1 - i)))

/-- The per-batch gradient accumulators as the spec states them:
zero-initialized, then the Backward Engine gradients of every example of
the batch added in, all against the unchanged parameter store. -/
def specGradSums (net : MLP) (batch : List Row) : List Mat × List Vec :=
  batch.foldl
    (fun acc r =>
      (List.zipWith mAdd acc.1 (backward net r.1 (net.target_fit r.2)).1,
       List.zipWith vAdd acc.2 (backward net r.1 (net.target_fit r.2)).2))
    (net.weights.map zerosM, net.biases.map zerosV)

/-- One mini-batch update as the spec states it: divide each accumulator
by the example count (mean gradient), then
`Weight[i] ← Weight[i] − learningRate·meanWeightGradient[i]` and likewise
for the biases. -/
def specUpdate (net : MLP) (batch : List Row) (learning_rate : ℚ) : MLP :=
  let n : ℚ := (batch.length : ℚ)
  { net with
    weights := List.zipWith
      (fun weight g => mSub weight (mScale learning_rate (mDivC g n)))
      net.weights (specGradSums net batch).1
    biases := List.zipWith
      (fun bias g => vSub bias (vScale learning_rate (vDivC g n)))
      net.biases (specGradSums net batch).2 }

/-! ### State-passing views of the methods

Each Python method is also given as a state transformer returning its
result together with the `self` it leaves behind.  `feed_forward`,
`get_activations_and_zs`, `backward` and `predict` contain no assignment
to `self.weights` or `self.biases`, so their state component is the
unchanged network; `process_batch` reassigns both lists. -/

def feed_forwardS (net : MLP) (a : Vec) : Vec × MLP :=
  (feed_forward net a, net)

def get_activations_and_zsS (net : MLP) (a : Vec) : (List Vec × List Vec) × MLP :=
  (get_activations_and_zs net a, net)

def backwardS (net : MLP) (a t : Vec) : (List Mat × List Vec) × MLP :=
  (backward net a t, net)

def predictS (net : MLP) (X : List Vec) : List Vec × MLP :=
  (predict net X, net)

def process_batchS (net : MLP) (batch : List Row) (learning_rate : ℚ) : Unit × MLP :=
  ((), process_batch net batch learning_rate)

/-! ### Concrete pluggable functions and a concrete network, used to
instantiate hypotheses of the claim theorems at explicit inputs. -/

/-- A concrete elementwise activation (the identity map). -/
def idActiv (v : Vec) : Vec := v

/-- A concrete loss derivative (difference of prediction and target). -/
def diffLoss (a t : Vec) : Vec := vSub a t

/-- A concrete weight initializer: the all-ones matrix of the given shape. -/
def onesInit (n m : Nat) : Mat := List.replicate n (List.replicate m 1)

/-- A concrete bias initializer: the zero vector of the given length. -/
def zerosInit (n : Nat) : Vec := List.replicate n 0

/-- A concrete one-hot-free target encoding: a singleton vector. -/
def singletonFit (q : ℚ) : Vec := [q]

/-- A concrete two-layer network over sizes `[1, 2, 1]`. -/
def testNet : MLP :=
  mkMLP [1, 2, 1] idActiv diffLoss idActiv idActiv idActiv singletonFit onesInit zerosInit

/-- The change of the weight matrices produced by one mini-batch update. -/
def weightDelta (net : MLP) (batch : List Row) (lr : ℚ) : List Mat :=
  List.zipWith mSub (process_batch net batch lr).weights net.weights

/-- The change of the bias vectors produced by one mini-batch update. -/
def biasDelta (net : MLP) (batch : List Row) (lr : ℚ) : List Vec :=
  List.zipWith vSub (process_batch net batch lr).biases net.biases

/-! ### Shape predicates -/

/-- A matrix with `r` rows, each of length `c`. -/
def HasShape (m : Mat) (r c : Nat) : Prop :=
  m.length = r ∧ ∀ row ∈ m, row.length = c

/-- The shape invariant of the spec: for LayerSizes `ls` of length
`L + 1`, the network holds exactly `L` weight matrices and `L` bias
vectors, with `Weight[i]` of shape `ls[i+1] × ls[i]` and `Bias[i]` of
length `ls[i+1]`. -/
def NetShaped (ls : List Nat) (net : MLP) : Prop :=
  net.weights.length = ls.length - 1 ∧
  net.biases.length = ls.length - 1 ∧
  ∀ i, i < ls.length - 1 →
    HasShape (net.weights.getD i []) (ls.getD (i + 1) 0) (ls.getD i 0) ∧
    (net.biases.getD i []).length = ls.getD (i + 1) 0

/-- The shape contract of the pluggable functions: the activations and
their derivatives are dimension-preserving, and the loss derivative has
the dimension of its first argument (the prediction). -/
def FnsShaped (net : MLP) : Prop :=
  (∀ v, (net.activation v).length = v.length) ∧
  (∀ v, (net.activation_derv v).length = v.length) ∧
  (∀ v, (net.output_activ v).length = v.length) ∧
  (∀ v, (net.output_derv v).length = v.length) ∧
  (∀ v t, (net.loss_derv v t).length = v.length)

/-- The shape contract of the injected parameter initializers. -/
def InitsShaped (weight_init : Nat → Nat → Mat) (bias_init : Nat → Vec) : Prop :=
  (∀ n m, HasShape (weight_init n m) n m) ∧ (∀ n, (bias_init n).length = n)

/-- Consecutive-shape chain for a zipped layer list: with input dimension
`s0` and output dimensions `ss`, each layer's weight maps the previous
dimension to the next and its bias has the output dimension. -/
def ChainShaped : List (Mat × Vec) → Nat → List Nat → Prop
  | [], _, ss => ss = []
  | _ :: _, _, [] => False
  | wb :: rest, s0, s1 :: ss =>
    HasShape wb.1 s1 s0 ∧ wb.2.length = s1 ∧ ChainShaped rest s1 ss

/-! ### Generic helper lemmas -/

/-- `takeDropPick` satisfies the without-replacement sampling contract. -/
theorem takeDropPick_valid {α : Type} : ValidPick (takeDropPick (α := α)) := by
  intro n d
  refine ⟨by simp [takeDropPick, Nat.min_comm], ?_⟩
  simp [takeDropPick]

/-! ### C8 -/

/-- C8: for every network state, `feed_forward` (evaluate),
`get_activations_and_zs` (evaluateWithTrace), `backward` and `predict`
leave every weight matrix and bias vector unchanged; among the methods,
only the mini-batch update step `process_batch` produces a new parameter
store. -/
theorem readers_leave_parameter_store_unchanged
    (net : MLP) (a t : Vec) (X : List Vec) (batch : List Row) (lr : ℚ) :
    (feed_forwardS net a).2 = net ∧
    (get_activations_and_zsS net a).2 = net ∧
    (backwardS net a t).2 = net ∧
    (predictS net X).2 = net ∧
    (process_batchS net batch lr).2 = process_batch net batch lr :=
  ⟨rfl, rfl, rfl, rfl, rfl⟩

/-! ### C5 -/

/-- C5 (counterexample to the claim as stated): constructing a network
from the one-element layer-size sequence `[3]` does not fail; it produces
a network value, with zero weight matrices and zero bias vectors. -/
theorem constructor_succeeds_on_short_layer_sizes :
    (mkMLP [3] idActiv diffLoss idActiv idActiv idActiv singletonFit onesInit zerosInit).weights
      = [] ∧
    (mkMLP [3] idActiv diffLoss idActiv idActiv idActiv singletonFit onesInit zerosInit).biases
      = [] :=
  ⟨rfl, rfl⟩

/-- C5 (amended): construction never fails and performs no validation:
for every layer-size sequence — including sequences with fewer than two
elements or with zero sizes — the constructor returns a network with
`length(LayerSizes) - 1` weight matrices and as many bias vectors. -/
theorem mkMLP_is_total_and_unvalidated (ls : List Nat)
    (f1 : Vec → Vec) (f2 : Vec → Vec → Vec) (f3 f4 f5 : Vec → Vec)
    (f6 : ℚ → Vec) (f7 : Nat → Nat → Mat) (f8 : Nat → Vec) :
    (mkMLP ls f1 f2 f3 f4 f5 f6 f7 f8).weights.length = ls.length - 1 ∧
    (mkMLP ls f1 f2 f3 f4 f5 f6 f7 f8).biases.length = ls.length - 1 := by
  constructor
  · simp [mkMLP, init_weights]
  · simp [mkMLP, init_biases]

/-! ### Helper lemmas about the partition loop -/

/-- The partition loop on the empty dataset returns zero batches at once. -/
theorem init_mini_batches_nil {α : Type} (pick : Nat → List α → List α × List α)
    (B : Int) (f : Nat) :
    init_mini_batches pick B (f + 1) [] = some (Except.ok []) := by
  simp [init_mini_batches]

/-- With `mini_batch_size = 0` and a non-empty dataset, every iteration of
the partition loop samples zero rows and drops nothing, so the loop never
terminates: it exhausts any amount of fuel. -/
theorem init_mini_batches_zero_diverges {α : Type}
    (pick : Nat → List α → List α × List α) (hp : ValidPick pick) :
    ∀ fuel (d : List α), d ≠ [] → init_mini_batches pick 0 fuel d = none := by
  intro fuel
  induction fuel with
  | zero => intro d _; rfl
  | succ f ih =>
    intro d hd
    have hne : d.isEmpty = false := by
      cases d with
      | nil => exact absurd rfl hd
      | cons a t => rfl
    have hmin : min (0 : Int) (d.length : Int) = 0 :=
      min_eq_left (by exact_mod_cast Nat.zero_le d.length)
    have hlen : (pick 0 d).1.length = 0 := by
      have := (hp 0 d).1
      simpa using this
    have hrest : (pick 0 d).2 ≠ [] := by
      intro hnil
      have hperm := (hp 0 d).2
      rw [List.eq_nil_of_length_eq_zero hlen, hnil] at hperm
      exact hd (by simpa using hperm.symm)
    simp [init_mini_batches, hne, hmin, sampleRows, ih _ hrest]

/-- With a negative `mini_batch_size` and a non-empty dataset, the first
iteration asks the sampling primitive for a negative number of rows, which
raises. -/
theorem init_mini_batches_neg_raises {α : Type}
    (pick : Nat → List α → List α × List α) (B : Int) (hB : B < 0)
    (f : Nat) (d : List α) (hd : d ≠ []) :
    init_mini_batches pick B (f + 1) d =
      some (Except.error "Cannot take a negative number of rows") := by
  have hne : d.isEmpty = false := by
    cases d with
    | nil => exact absurd rfl hd
    | cons a t => rfl
  have hmin : min B (d.length : Int) = B :=
    min_eq_left (le_trans (le_of_lt hB) (by exact_mod_cast Nat.zero_le d.length))
  simp [init_mini_batches, hne, hmin, sampleRows, hB]

/-- A failed partition of some epoch makes the whole `train` call fail the
same way. -/
theorem trainFuel_of_init_none (pick : Nat → List Row → List Row × List Row)
    (net : MLP) (d : List Row) (B : Int) (lr : ℚ) (E fuel : Nat)
    (h : init_mini_batches pick B fuel d = none) (hE : 1 ≤ E) :
    trainFuel pick net d B lr E fuel = none := by
  cases E with
  | zero => omega
  | succ e => simp [trainFuel, h]

/-- An erroring partition of the first epoch propagates out of `train`. -/
theorem trainFuel_of_init_error (pick : Nat → List Row → List Row × List Row)
    (net : MLP) (d : List Row) (B : Int) (lr : ℚ) (E fuel : Nat) (msg : String)
    (h : init_mini_batches pick B fuel d = some (Except.error msg)) (hE : 1 ≤ E) :
    trainFuel pick net d B lr E fuel = some (Except.error msg) := by
  cases E with
  | zero => omega
  | succ e => simp [trainFuel, h]

/-! ### C6 -/

/-- C6 (counterexample to the claim as stated): with `mini_batch_size = 0`
and a one-row dataset, `train` does not fail with a configuration error
propagating to the caller — it never terminates at all: no amount of fuel
makes the first epoch's partition loop finish. -/
theorem train_zero_batch_size_loops_forever :
    ¬ ∃ fuel r, trainFuel takeDropPick testNet [([1], 1)] 0 1 1 fuel = some r := by
  rintro ⟨fuel, r, h⟩
  rw [trainFuel_of_init_none takeDropPick testNet [([1], 1)] 0 1 1 fuel
    (init_mini_batches_zero_diverges takeDropPick takeDropPick_valid fuel _ (by simp))
    (le_refl 1)] at h
  exact Option.noConfusion h

/-- C6 (amended): the code performs no batch-size validation.  For a
non-empty dataset and at least one epoch, `mini_batch_size = 0` makes the
partition loop run forever (each iteration samples zero rows and removes
nothing), and a negative `mini_batch_size` terminates with the error
raised by the external sampling primitive — not with a configuration
error of the core. -/
theorem train_nonpositive_batch_size (pick : Nat → List Row → List Row × List Row)
    (hp : ValidPick pick) (net : MLP) (d : List Row) (hd : d ≠ []) (lr : ℚ)
    (E : Nat) (hE : 1 ≤ E) (B : Int) (fuel : Nat) :
    (B = 0 → trainFuel pick net d B lr E fuel = none) ∧
    (B < 0 → 1 ≤ fuel →
      trainFuel pick net d B lr E fuel =
        some (Except.error "Cannot take a negative number of rows")) := by
  constructor
  · intro hB0
    subst hB0
    exact trainFuel_of_init_none pick net d 0 lr E fuel
      (init_mini_batches_zero_diverges pick hp fuel d hd) hE
  · intro hBneg hfuel
    obtain ⟨f, rfl⟩ : ∃ f, fuel = f + 1 := ⟨fuel - 1, by omega⟩
    exact trainFuel_of_init_error pick net d B lr E (f + 1) _
      (init_mini_batches_neg_raises pick B hBneg f d hd) hE

/-- Witness for C6 (amended) at a concrete sampler, network, dataset and
fuel. -/
theorem train_nonpositive_batch_size_witness :
    ValidPick (takeDropPick (α := Row)) ∧ ([([1], 1)] : List Row) ≠ [] ∧ (1 : Nat) ≤ 1 ∧
    (((0 : Int) = 0 → trainFuel takeDropPick testNet [([1], 1)] 0 1 1 5 = none) ∧
      ((0 : Int) < 0 → 1 ≤ 5 →
        trainFuel takeDropPick testNet [([1], 1)] 0 1 1 5 =
          some (Except.error "Cannot take a negative number of rows"))) :=
  ⟨takeDropPick_valid, by simp, le_refl 1,
    train_nonpositive_batch_size takeDropPick takeDropPick_valid testNet
      [([1], 1)] (by simp) 1 1 (le_refl 1) 0 5⟩

/-! ### C10 -/

/-- C10: on an empty dataset, each epoch partitions into zero batches, no
parameter update happens, no error is raised, and the per-epoch completion
signal is emitted exactly `E` times: `train` returns the unchanged network
together with the count `E`. -/
theorem train_empty_dataset_noop (pick : Nat → List Row → List Row × List Row)
    (net : MLP) (E : Nat) (B : Int) (hB : 0 < B) (lr : ℚ) (fuel : Nat)
    (hf : 1 ≤ fuel) :
    init_mini_batches pick B fuel [] = some (Except.ok []) ∧
    trainFuel pick net [] B lr E fuel = some (Except.ok (net, E)) := by
  obtain ⟨f, rfl⟩ : ∃ f, fuel = f + 1 := ⟨fuel - 1, by omega⟩
  have hinit := init_mini_batches_nil pick B f
  refine ⟨hinit, ?_⟩
  induction E with
  | zero => rfl
  | succ e ih => simp [trainFuel, hinit, ih]

/-- Witness for C10 at a concrete sampler, network, epoch count, batch
size and fuel. -/
theorem train_empty_dataset_noop_witness :
    (0 : Int) < 2 ∧ (1 : Nat) ≤ 1 ∧
    (init_mini_batches takeDropPick 2 1 ([] : List Row) = some (Except.ok []) ∧
      trainFuel takeDropPick testNet [] 2 1 3 1 = some (Except.ok (testNet, 3))) :=
  ⟨by decide, le_refl 1, train_empty_dataset_noop takeDropPick testNet 3 2 (by decide) 1 1 (le_refl 1)⟩

/-- One step of the partition loop on non-empty data, with a non-negative
sample size: sample, then recurse on the remaining rows. -/
theorem init_mini_batches_step {α : Type} (pick : Nat → List α → List α × List α)
    (B : Int) (f : Nat) (d : List α) (hd : d.isEmpty = false)
    (hn0 : ¬ min B (d.length : Int) < 0) :
    init_mini_batches pick B (f + 1) d =
      match init_mini_batches pick B f (pick (min B (d.length : Int)).toNat d).2 with
      | none => none
      | some (Except.error e) => some (Except.error e)
      | some (Except.ok bs) =>
        some (Except.ok ((pick (min B (d.length : Int)).toNat d).1 :: bs)) := by
  simp [init_mini_batches, hd, sampleRows, hn0]

/-- Ceiling-division recurrence matching one partition step. -/
theorem ceil_div_step (len b : Nat) (hb : 1 ≤ b) (hlen : 1 ≤ len) :
    (len + b - 1) / b = ((len - min b len) + b - 1) / b + 1 := by
  have hb0 : 0 < b := hb
  have e1 : (len + b - 1) / b = (len - 1) / b + 1 := by
    conv_lhs => rw [show len + b - 1 = (len - 1) + b from by omega]
    rw [Nat.add_div_right _ hb0]
  rcases le_or_lt len b with h | h
  · have h1 : len - min b len = 0 := by omega
    have e2 : (len - 1) / b = 0 := Nat.div_eq_of_lt (by omega)
    have e3 : (0 + b - 1) / b = 0 := Nat.div_eq_of_lt (by omega)
    rw [h1]
    omega
  · have h1 : len - min b len = len - b := by omega
    have e2 : (len - b + b - 1) / b = (len - 1 - b) / b + 1 := by
      conv_lhs => rw [show len - b + b - 1 = (len - 1 - b) + b from by omega]
      rw [Nat.add_div_right _ hb0]
    have e3 : (len - 1) / b = (len - 1 - b) / b + 1 := by
      conv_lhs => rw [show len - 1 = (len - 1 - b) + b from by omega]
      rw [Nat.add_div_right _ hb0]
    rw [h1]
    omega

/-- C4: with a positive batch size `B`, a valid without-replacement
sampler and enough fuel, the partition loop terminates and produces
exactly `⌈N/B⌉` mini-batches whose sizes sum to `N`, every batch before
the last of size `B` and the last of size `((N-1) mod B) + 1` (the
remainder, or `B` when `B` divides `N`), and whose concatenation is a
permutation of the dataset — every row in exactly one batch. -/
theorem init_mini_batches_partitions {α : Type}
    (pick : Nat → List α → List α × List α) (hp : ValidPick pick)
    (B : Int) (hB : 1 ≤ B) :
    ∀ fuel (d : List α), d.length + 1 ≤ fuel →
    ∃ bs, init_mini_batches pick B fuel d = some (Except.ok bs) ∧
      bs.length = (d.length + B.toNat - 1) / B.toNat ∧
      (bs.map List.length).sum = d.length ∧
      bs.flatten.Perm d ∧
      (∀ b ∈ bs.dropLast, b.length = B.toNat) ∧
      (∀ b, bs.getLast? = some b → b.length = (d.length - 1) % B.toNat + 1) := by
  have hbt : 1 ≤ B.toNat := by omega
  intro fuel
  induction fuel with
  | zero => intro d h; omega
  | succ f ih =>
    intro d hlen
    by_cases hd : d = []
    · subst hd
      refine ⟨[], init_mini_batches_nil pick B f, ?_, rfl, List.Perm.refl _, ?_, ?_⟩
      · simpa using (Nat.div_eq_of_lt (by omega)).symm
      · intro b hb
        simp at hb
      · intro b hb
        simp at hb
    · have hne : d.isEmpty = false := by
        cases d with
        | nil => exact absurd rfl hd
        | cons a t => rfl
      have hdlen : 1 ≤ d.length := by
        cases d with
        | nil => exact absurd rfl hd
        | cons a t => simp
      have hn0 : ¬ min B (d.length : Int) < 0 := by omega
      have hm : (min B (d.length : Int)).toNat = min B.toNat d.length := by omega
      have hm1 : 1 ≤ min B.toNat d.length := by omega
      have hpick1 : (pick (min B.toNat d.length) d).1.length = min B.toNat d.length := by
        have h := (hp (min B.toNat d.length) d).1
        omega
      have hperm : ((pick (min B.toNat d.length) d).1 ++
          (pick (min B.toNat d.length) d).2).Perm d :=
        (hp (min B.toNat d.length) d).2
      have hrlen : (pick (min B.toNat d.length) d).2.length =
          d.length - min B.toNat d.length := by
        have h := hperm.length_eq
        simp at h
        omega
      have hfuel2 : (pick (min B.toNat d.length) d).2.length + 1 ≤ f := by omega
      obtain ⟨bs2, hbs2, hcount, hsum, hjoin, hdrop, hlast⟩ :=
        ih (pick (min B.toNat d.length) d).2 hfuel2
      have hstep : init_mini_batches pick B (f + 1) d =
          some (Except.ok ((pick (min B.toNat d.length) d).1 :: bs2)) := by
        rw [init_mini_batches_step pick B f d hne hn0, hm, hbs2]
      have hkey : bs2 ≠ [] → (pick (min B.toNat d.length) d).2 ≠ [] := by
        intro hbs0 h0
        rw [h0] at hbs2
        obtain ⟨f2, rfl⟩ : ∃ f2, f = f2 + 1 := ⟨f - 1, by omega⟩
        rw [init_mini_batches_nil pick B f2] at hbs2
        injection hbs2 with h1
        injection h1 with h2
        exact hbs0 h2.symm
      refine ⟨(pick (min B.toNat d.length) d).1 :: bs2, hstep, ?_, ?_, ?_, ?_, ?_⟩
      · rw [List.length_cons, hcount, hrlen,
          ceil_div_step d.length B.toNat hbt hdlen]
      · simp only [List.map_cons, List.sum_cons, hpick1, hsum, hrlen]
        omega
      · have h1 : (((pick (min B.toNat d.length) d).1 :: bs2).flatten).Perm
            ((pick (min B.toNat d.length) d).1 ++ (pick (min B.toNat d.length) d).2) := by
          simpa using List.Perm.append_left (pick (min B.toNat d.length) d).1 hjoin
        exact h1.trans hperm
      · intro b hb
        by_cases hbs0 : bs2 = []
        · subst hbs0
          simp at hb
        · rw [List.dropLast_cons_of_ne_nil hbs0] at hb
          rcases List.mem_cons.mp hb with hbe | hbm
          · subst hbe
            have hr := hkey hbs0
            have hrpos : (pick (min B.toNat d.length) d).2.length ≠ 0 := by
              intro h0
              exact hr (List.eq_nil_of_length_eq_zero h0)
            have hmB : min B.toNat d.length = B.toNat := by omega
            rw [hpick1, hmB]
          · exact hdrop b hbm
      · intro b hb
        cases bs2 with
        | nil =>
          simp at hb
          have hr0 : (pick (min B.toNat d.length) d).2.length = 0 := by
            simpa using hsum.symm
          have hmlen : min B.toNat d.length = d.length := by omega
          have hmod : (d.length - 1) % B.toNat = d.length - 1 :=
            Nat.mod_eq_of_lt (by omega)
          rw [← hb, hpick1, hmlen, hmod]
          omega
        | cons b2 t2 =>
          rw [List.getLast?_cons_cons] at hb
          have hr : (pick (min B.toNat d.length) d).2 ≠ [] :=
            hkey (by simp)
          have hrpos : (pick (min B.toNat d.length) d).2.length ≠ 0 := by
            intro h0
            exact hr (List.eq_nil_of_length_eq_zero h0)
          have hmB : min B.toNat d.length = B.toNat := by omega
          have h2 := hlast b hb
          rw [hrlen, hmB] at h2
          rw [h2]
          have he : d.length - 1 = (d.length - B.toNat - 1) + B.toNat := by omega
          rw [he, Nat.add_mod_right]

/-- Witness for C4 at a concrete sampler, batch size, dataset and fuel. -/
theorem init_mini_batches_partitions_witness :
    ValidPick (takeDropPick (α := ℚ)) ∧ (1 : Int) ≤ 2 ∧
    ([1, 2, 3] : List ℚ).length + 1 ≤ 4 ∧
    (∃ bs, init_mini_batches takeDropPick 2 4 ([1, 2, 3] : List ℚ) = some (Except.ok bs) ∧
      bs.length = (([1, 2, 3] : List ℚ).length + (2 : Int).toNat - 1) / (2 : Int).toNat ∧
      (bs.map List.length).sum = ([1, 2, 3] : List ℚ).length ∧
      bs.flatten.Perm ([1, 2, 3] : List ℚ) ∧
      (∀ b ∈ bs.dropLast, b.length = (2 : Int).toNat) ∧
      (∀ b, bs.getLast? = some b →
        b.length = (([1, 2, 3] : List ℚ).length - 1) % (2 : Int).toNat + 1)) :=
  ⟨takeDropPick_valid, by decide, by decide,
    init_mini_batches_partitions takeDropPick takeDropPick_valid 2 (by decide)
      4 [1, 2, 3] (by decide)⟩

/-! ### zipWith and map helper lemmas -/

/-- Fusing `zipWith` with a second `zipWith` over its own left list. -/
theorem zipWith_left_fuse {α β γ δ : Type} (F : γ → α → δ) (G : α → β → γ)
    (u : List α) (v : List β) :
    List.zipWith F (List.zipWith G u v) u =
      List.zipWith (fun a b => F (G a b) a) u v := by
  induction u generalizing v with
  | nil => simp
  | cons a u ih =>
    cases v with
    | nil => simp
    | cons b v => simp [ih]

/-- Pointwise-equal functions give equal `zipWith` results. -/
theorem zipWith_ext {α β γ : Type} (f g : α → β → γ) (u : List α) (v : List β)
    (h : ∀ a b, f a b = g a b) :
    List.zipWith f u v = List.zipWith g u v := by
  induction u generalizing v with
  | nil => simp
  | cons a u ih =>
    cases v with
    | nil => simp
    | cons b v => simp [h, ih]

/-- Zipping two maps over the same list is a single map. -/
theorem zip_map_same {α β γ : Type} (f : α → β) (g : α → γ) (l : List α) :
    (l.map f).zip (l.map g) = l.map (fun x => (f x, g x)) := by
  induction l with
  | nil => rfl
  | cons a t ih => simp [ih]

/-- Scaling then dividing a vector equals dividing then scaling:
`(lr * x) / n = lr * (x / n)` entrywise. -/
theorem vDivC_vScale (lr n : ℚ) (g : Vec) :
    vDivC (vScale lr g) n = vScale lr (vDivC g n) := by
  simp only [vDivC, vScale, List.map_map]
  apply List.map_congr_left
  intro x _
  simp [Function.comp, mul_div_assoc]

/-- Scaling then dividing a matrix equals dividing then scaling. -/
theorem mDivC_mScale (lr n : ℚ) (g : Mat) :
    mDivC (mScale lr g) n = mScale lr (mDivC g n) := by
  simp only [mDivC, mScale, List.map_map]
  apply List.map_congr_left
  intro row _
  simp only [Function.comp]
  exact vDivC_vScale lr n row

/-! ### C2 -/

/-- C2: processing a non-empty batch equals the spec's mean-gradient
descent step: zero-initialized accumulators, the Backward Engine gradients
of every example (all computed against the unmodified parameter store)
added in, and one final simultaneous update
`Weight[i] ← Weight[i] − learningRate·(accumulated[i]/n)`. -/
theorem process_batch_is_mean_gradient_step (net : MLP) (batch : List Row)
    (lr : ℚ) (hne : batch ≠ []) :
    process_batch net batch lr = specUpdate net batch lr := by
  have hgrad : ((batch.map Prod.fst).zip ((batch.map Prod.snd).map net.target_fit)).foldl
      (fun acc p =>
        (List.zipWith mAdd acc.1 (backward net p.1 p.2).1,
         List.zipWith vAdd acc.2 (backward net p.1 p.2).2))
      (net.weights.map zerosM, net.biases.map zerosV) = specGradSums net batch := by
    rw [List.map_map, zip_map_same, List.foldl_map]
    rfl
  simp only [process_batch, specUpdate, hgrad, List.length_map]
  congr 1
  · apply zipWith_ext
    intro w g
    rw [mDivC_mScale]
  · apply zipWith_ext
    intro b g
    rw [vDivC_vScale]

/-- Witness for C2 at a concrete network, batch and learning rate. -/
theorem process_batch_is_mean_gradient_step_witness :
    ([([1], 2)] : List Row) ≠ [] ∧
    process_batch testNet [([1], 2)] 1 = specUpdate testNet [([1], 2)] 1 :=
  ⟨by simp, process_batch_is_mean_gradient_step testNet [([1], 2)] 1 (by simp)⟩

/-! ### C9 -/

/-- `(a − (2r·x)/n) − a = 2·((a − (r·x)/n) − a)`, entrywise on vectors. -/
theorem vec_delta_scale (r n : ℚ) (u g : Vec) :
    vSub (vSub u (vDivC (vScale (2 * r) g) n)) u =
      vScale 2 (vSub (vSub u (vDivC (vScale r g) n)) u) := by
  induction u generalizing g with
  | nil => rfl
  | cons a u ih =>
    cases g with
    | nil => simp [vSub, vDivC, vScale]
    | cons x g =>
      simp only [vSub, vDivC, vScale, List.map_cons, List.zipWith_cons_cons,
        List.cons.injEq]
      exact ⟨by ring, ih g⟩

/-- The matrix version of `vec_delta_scale`. -/
theorem mat_delta_scale (r n : ℚ) (w g : Mat) :
    mSub (mSub w (mDivC (mScale (2 * r) g) n)) w =
      mScale 2 (mSub (mSub w (mDivC (mScale r g) n)) w) := by
  induction w generalizing g with
  | nil => rfl
  | cons row w ih =>
    cases g with
    | nil => simp [mSub, mDivC, mScale]
    | cons grow g =>
      simp only [mSub, mDivC, mScale, List.map_cons, List.zipWith_cons_cons,
        List.cons.injEq]
      exact ⟨vec_delta_scale r n row grow, ih g⟩

/-- C9: with the parameter store, pluggable functions and batch contents
fixed, the parameter delta of one mini-batch update at learning rate `2r`
is exactly twice the delta at learning rate `r`, for every layer. -/
theorem update_delta_linear_in_learning_rate (net : MLP) (batch : List Row)
    (r : ℚ) :
    weightDelta net batch (2 * r) = (weightDelta net batch r).map (mScale 2) ∧
    biasDelta net batch (2 * r) = (biasDelta net batch r).map (vScale 2) := by
  constructor
  · simp only [weightDelta, process_batch]
    rw [zipWith_left_fuse, zipWith_left_fuse, List.map_zipWith]
    apply zipWith_ext
    intro w g
    exact mat_delta_scale r _ w g
  · simp only [biasDelta, process_batch]
    rw [zipWith_left_fuse, zipWith_left_fuse, List.map_zipWith]
    apply zipWith_ext
    intro b g
    exact vec_delta_scale r _ b g

/-! ### Bridge lemmas between the source loops and the spec recurrences -/

/-- The default of `getLastD` is irrelevant on a non-empty list. -/
theorem getLastD_of_ne_nil {α : Type} (l : List α) (h : l ≠ []) (d1 d2 : α) :
    l.getLastD d1 = l.getLastD d2 := by
  cases l with
  | nil => exact absurd rfl h
  | cons a t => rw [List.getLastD_cons, List.getLastD_cons]

/-- Zipping the `dropLast` of two equally long lists is the `dropLast` of
their zip. -/
theorem zip_dropLast {α β : Type} :
    ∀ (w : List α) (b : List β), w.length = b.length →
    w.dropLast.zip b.dropLast = (w.zip b).dropLast := by
  intro w
  induction w with
  | nil =>
    intro b h
    simp
  | cons x w ih =>
    intro b h
    cases b with
    | nil => simp at h
    | cons y b =>
      cases w with
      | nil =>
        cases b with
        | nil => simp
        | cons z b2 => simp at h
      | cons x2 w2 =>
        cases b with
        | nil => simp at h
        | cons y2 b2 =>
          simp only [List.dropLast_cons₂, List.zip_cons_cons]
          rw [ih (y2 :: b2) (by simpa using h)]
          simp [List.zip_cons_cons]

/-- The last element of a zip of equally long lists is the pair of last
elements. -/
theorem getLastD_zip {α β : Type} :
    ∀ (w : List α) (b : List β), w.length = b.length →
    ∀ (dw : α) (db : β),
    (w.zip b).getLastD (dw, db) = (w.getLastD dw, b.getLastD db) := by
  intro w
  induction w with
  | nil =>
    intro b h dw db
    cases b with
    | nil => rfl
    | cons y b => simp at h
  | cons x w ih =>
    intro b h dw db
    cases b with
    | nil => simp at h
    | cons y b =>
      simp only [List.zip_cons_cons, List.getLastD_cons]
      exact ih b (by simpa using h) x y

/-- The spec recurrence equals the source shape: a fold of the hidden-layer
step over all but the last layer, then the output layer applied once. -/
theorem specForward_eq_loop (net : MLP) :
    ∀ (l : List (Mat × Vec)) (a : Vec), l ≠ [] →
    specForward net l a =
      net.output_activ (vAdd
        (matVec (l.getLastD ([], [])).1
          (l.dropLast.foldl (fun a wb => net.activation (vAdd (matVec wb.1 a) wb.2)) a))
        (l.getLastD ([], [])).2) := by
  intro l
  induction l with
  | nil =>
    intro a h
    exact absurd rfl h
  | cons wb l ih =>
    intro a _
    cases l with
    | nil => simp [specForward]
    | cons wb2 l2 =>
      simp only [specForward]
      rw [ih (net.activation (vAdd (matVec wb.1 a) wb.2)) (by simp)]
      simp [List.getLastD_cons, List.dropLast_cons₂]

/-- The traced spec recurrence equals the source shape: the trace loop
over all but the last layer, then the output layer's pre-activation and
activation appended. -/
theorem specTrace_eq_loop (net : MLP) :
    ∀ (l : List (Mat × Vec)) (a : Vec), l ≠ [] →
    specTrace net l a =
      (a :: (traceLoop net l.dropLast a).1 ++
        [net.output_activ (vAdd
          (matVec (l.getLastD ([], [])).1 (traceLoop net l.dropLast a).2.2)
          (l.getLastD ([], [])).2)],
       (traceLoop net l.dropLast a).2.1 ++
        [vAdd (matVec (l.getLastD ([], [])).1 (traceLoop net l.dropLast a).2.2)
          (l.getLastD ([], [])).2]) := by
  intro l
  induction l with
  | nil =>
    intro a h
    exact absurd rfl h
  | cons wb l ih =>
    intro a _
    cases l with
    | nil => simp [specTrace, traceLoop]
    | cons wb2 l2 =>
      simp only [specTrace]
      rw [ih (net.activation (vAdd (matVec wb.1 a) wb.2)) (by simp)]
      simp [List.getLastD_cons, List.dropLast_cons₂, traceLoop]

/-- `feed_forward` implements the spec's forward recurrence on the zipped
layer list. -/
theorem feed_forward_eq_specForward (net : MLP)
    (hb : net.biases.length = net.weights.length)
    (hL : 1 ≤ net.weights.length) (a : Vec) :
    feed_forward net a = specForward net (net.weights.zip net.biases) a := by
  have hlen : net.weights.length = net.biases.length := hb.symm
  have hzip_ne : net.weights.zip net.biases ≠ [] := by
    intro h
    have h2 : (net.weights.zip net.biases).length = 0 := by rw [h]; rfl
    rw [List.length_zip, hb, min_self] at h2
    omega
  rw [specForward_eq_loop net _ a hzip_ne, ← zip_dropLast _ _ hlen,
    getLastD_zip _ _ hlen]
  rfl

/-- `get_activations_and_zs` implements the spec's traced recurrence on
the zipped layer list. -/
theorem trace_eq_specTrace (net : MLP)
    (hb : net.biases.length = net.weights.length)
    (hL : 1 ≤ net.weights.length) (a : Vec) :
    get_activations_and_zs net a = specTrace net (net.weights.zip net.biases) a := by
  have hlen : net.weights.length = net.biases.length := hb.symm
  have hzip_ne : net.weights.zip net.biases ≠ [] := by
    intro h
    have h2 : (net.weights.zip net.biases).length = 0 := by rw [h]; rfl
    rw [List.length_zip, hb, min_self] at h2
    omega
  rw [specTrace_eq_loop net _ a hzip_ne, ← zip_dropLast _ _ hlen,
    getLastD_zip _ _ hlen]
  rfl

/-! ### C3 -/

/-- C3: `feed_forward` computes exactly the spec's layer recurrence —
hidden layers 0..L-2 with `activation`, the final layer with the distinct
output activation — and `get_activations_and_zs` computes the identical
recurrence while recording every activation (the input at index 0) and
every pre-activation in order. -/
theorem forward_engine_matches_spec (net : MLP)
    (hb : net.biases.length = net.weights.length)
    (hL : 1 ≤ net.weights.length) (a : Vec) :
    feed_forward net a = specForward net (net.weights.zip net.biases) a ∧
    get_activations_and_zs net a = specTrace net (net.weights.zip net.biases) a :=
  ⟨feed_forward_eq_specForward net hb hL a, trace_eq_specTrace net hb hL a⟩

/-- Witness for C3 at a concrete network and input. -/
theorem forward_engine_matches_spec_witness :
    testNet.biases.length = testNet.weights.length ∧ 1 ≤ testNet.weights.length ∧
    (feed_forward testNet [3] = specForward testNet (testNet.weights.zip testNet.biases) [3] ∧
      get_activations_and_zs testNet [3] =
        specTrace testNet (testNet.weights.zip testNet.biases) [3]) :=
  ⟨rfl, by decide, forward_engine_matches_spec testNet rfl (by decide) [3]⟩

/-! ### Helper lemmas about the backward loop -/

/-- `get?` of a `range`-map. -/
theorem get?_range_map {β : Type} (f : Nat → β) (L i : Nat) :
    ((List.range L).map f).get? i = if i < L then some (f i) else none := by
  rw [List.get?_map]
  by_cases h : i < L
  · rw [List.get?_range h, if_pos h]
    rfl
  · have h2 : (List.range L).get? i = none := by
      rw [List.get?_eq_none]
      simpa using by omega
    rw [h2, if_neg h]
    rfl

/-- The backward loop preserves the lengths of both gradient lists. -/
theorem backwardLoop_length (net : MLP) (activs zs : List Vec) :
    ∀ (c : Nat) (ld : Vec) (wds : List Mat) (bds : List Vec),
    (backwardLoop net activs zs c ld wds bds).1.length = wds.length ∧
    (backwardLoop net activs zs c ld wds bds).2.length = bds.length := by
  intro c
  induction c with
  | zero =>
    intro ld wds bds
    exact ⟨rfl, rfl⟩
  | succ k ih =>
    intro ld wds bds
    simp only [backwardLoop]
    have h := ih (hadamard (matTvec (net.weights.getD (k + 1) []) ld)
        (net.activation_derv (zs.getD k [])))
      (wds.set k (outerProd (hadamard (matTvec (net.weights.getD (k + 1) []) ld)
        (net.activation_derv (zs.getD k []))) (activs.getD k [])))
      (bds.set k (hadamard (matTvec (net.weights.getD (k + 1) []) ld)
        (net.activation_derv (zs.getD k []))))
    simpa [List.length_set] using h

/-- Entry-level description of the backward loop: iterating the loop with
counter `c` (current signal `δ_c`) overwrites positions `0 .. c-1` of the
gradient lists with the spec's error signals and outer products, and
leaves every other position unchanged. -/
theorem backwardLoop_get (net : MLP) (activs zs : List Vec) (dtop : Vec) :
    ∀ (c : Nat) (ld : Vec) (wds : List Mat) (bds : List Vec),
    c + 1 ≤ net.weights.length →
    wds.length = net.weights.length → bds.length = net.weights.length →
    ld = deltaDown net zs dtop (net.weights.length - 1 - c) →
    ∀ i,
    ((backwardLoop net activs zs c ld wds bds).1.get? i =
      if i < c then
        some (outerProd (deltaDown net zs dtop (net.weights.length - 1 - i))
          (activs.getD i []))
      else wds.get? i) ∧
    ((backwardLoop net activs zs c ld wds bds).2.get? i =
      if i < c then some (deltaDown net zs dtop (net.weights.length - 1 - i))
      else bds.get? i) := by
  intro c
  induction c with
  | zero =>
    intro ld wds bds _ _ _ _ i
    simp [backwardLoop]
  | succ k ih =>
    intro ld wds bds hc hw hbd hld i
    have hld2 : hadamard (matTvec (net.weights.getD (k + 1) []) ld)
        (net.activation_derv (zs.getD k [])) =
        deltaDown net zs dtop (net.weights.length - 1 - k) := by
      rw [hld]
      have he1 : net.weights.length - 1 - k = (net.weights.length - 2 - k) + 1 := by
        omega
      rw [he1, deltaDown]
      have he2 : net.weights.length - 1 - (net.weights.length - 2 - k) = k + 1 := by
        omega
      have he3 : net.weights.length - 2 - (net.weights.length - 2 - k) = k := by
        omega
      have he4 : net.weights.length - 1 - (k + 1) = net.weights.length - 2 - k := by
        omega
      rw [he2, he3, he4]
    simp only [backwardLoop]
    rw [hld2]
    have hres := ih (deltaDown net zs dtop (net.weights.length - 1 - k))
      (wds.set k (outerProd (deltaDown net zs dtop (net.weights.length - 1 - k))
        (activs.getD k [])))
      (bds.set k (deltaDown net zs dtop (net.weights.length - 1 - k)))
      (by omega) (by rw [List.length_set]; exact hw)
      (by rw [List.length_set]; exact hbd) rfl i
    rcases hres with ⟨h1, h2⟩
    constructor
    · rw [h1]
      by_cases hik : i < k
      · rw [if_pos hik, if_pos (by omega : i < k + 1)]
      · by_cases hik2 : i = k
        · subst hik2
          rw [if_neg hik, if_pos (by omega : i < i + 1)]
          exact List.get?_set_eq_of_lt _ (by omega)
        · rw [if_neg hik, if_neg (by omega : ¬ i < k + 1)]
          exact List.get?_set_ne _ _ (by omega)
    · rw [h2]
      by_cases hik : i < k
      · rw [if_pos hik, if_pos (by omega : i < k + 1)]
      · by_cases hik2 : i = k
        · subst hik2
          rw [if_neg hik, if_pos (by omega : i < i + 1)]
          exact List.get?_set_eq_of_lt _ (by omega)
        · rw [if_neg hik, if_neg (by omega : ¬ i < k + 1)]
          exact List.get?_set_ne _ _ (by omega)

/-- The trace loop returns one activation and one pre-activation per
processed layer. -/
theorem traceLoop_lengths (net : MLP) :
    ∀ (l : List (Mat × Vec)) (a : Vec),
    (traceLoop net l a).1.length = l.length ∧
    (traceLoop net l a).2.1.length = l.length := by
  intro l
  induction l with
  | nil =>
    intro a
    exact ⟨rfl, rfl⟩
  | cons wb rest ih =>
    intro a
    simp [traceLoop, ih]

/-- For an `L`-layer network the trace records `L + 1` activations and
`L` pre-activations. -/
theorem trace_lengths (net : MLP) (hb : net.biases.length = net.weights.length)
    (hL : 1 ≤ net.weights.length) (a : Vec) :
    (get_activations_and_zs net a).1.length = net.weights.length + 1 ∧
    (get_activations_and_zs net a).2.length = net.weights.length := by
  have h1 := (traceLoop_lengths net (net.weights.dropLast.zip net.biases.dropLast) a).1
  have h2 := (traceLoop_lengths net (net.weights.dropLast.zip net.biases.dropLast) a).2
  rw [List.length_zip, List.length_dropLast, List.length_dropLast, hb] at h1 h2
  constructor
  · simp only [get_activations_and_zs, List.length_cons, List.length_append,
      List.length_nil, h1]
    omega
  · simp only [get_activations_and_zs, List.length_append, List.length_cons,
      List.length_nil, h2]
    omega

/-! ### C1 -/

/-- `backward` equals `specBackward` (shared helper; see the C1 theorem). -/
theorem backward_eq_specBackward (net : MLP)
    (hb : net.biases.length = net.weights.length)
    (hL : 1 ≤ net.weights.length) (a t : Vec) :
    backward net a t = specBackward net a t := by
  have htr := trace_lengths net hb hL a
  simp only [backward, specBackward, outputDelta]
  rw [hb]
  set activs := (get_activations_and_zs net a).1 with hactivs
  set zs := (get_activations_and_zs net a).2 with hzs
  set ld := hadamard (net.loss_derv (activs.getLastD []) t)
    (net.output_derv (zs.getLastD [])) with hldd
  have e2 : activs.length - 2 = net.weights.length - 1 := by omega
  rw [e2]
  have hw0 : ((net.weights.map zerosM).set (net.weights.length - 1)
      (outerProd ld (activs.getD (net.weights.length - 1) []))).length
      = net.weights.length := by
    rw [List.length_set, List.length_map]
  have hb0 : ((net.biases.map zerosV).set (net.weights.length - 1) ld).length
      = net.weights.length := by
    rw [List.length_set, List.length_map, hb]
  have hld0 : ld = deltaDown net zs ld
      (net.weights.length - 1 - (net.weights.length - 1)) := by
    rw [show net.weights.length - 1 - (net.weights.length - 1) = 0 from by omega]
    rfl
  have hget := backwardLoop_get net activs zs ld (net.weights.length - 1) ld
    ((net.weights.map zerosM).set (net.weights.length - 1)
      (outerProd ld (activs.getD (net.weights.length - 1) [])))
    ((net.biases.map zerosV).set (net.weights.length - 1) ld)
    (by omega) hw0 hb0 hld0
  refine Prod.ext ?_ ?_
  · apply List.ext_get?
    intro i
    rw [(hget i).1, get?_range_map]
    by_cases h1 : i < net.weights.length - 1
    · rw [if_pos h1, if_pos (by omega)]
    · by_cases h2 : i = net.weights.length - 1
      · subst h2
        rw [if_neg h1, if_pos (by omega)]
        rw [List.get?_set_eq_of_lt _ (by rw [List.length_map]; omega)]
        rw [show net.weights.length - 1 - (net.weights.length - 1) = 0 from by omega]
        rfl
      · rw [if_neg h1, if_neg (by omega)]
        rw [List.get?_set_ne _ _ (by omega)]
        rw [List.get?_eq_none.mpr (by rw [List.length_map]; omega)]
  · apply List.ext_get?
    intro i
    rw [(hget i).2, get?_range_map]
    by_cases h1 : i < net.weights.length - 1
    · rw [if_pos h1, if_pos (by omega)]
    · by_cases h2 : i = net.weights.length - 1
      · subst h2
        rw [if_neg h1, if_pos (by omega)]
        rw [List.get?_set_eq_of_lt _ (by rw [List.length_map, hb]; omega)]
        rw [show net.weights.length - 1 - (net.weights.length - 1) = 0 from by omega]
        rfl
      · rw [if_neg h1, if_neg (by omega)]
        rw [List.get?_set_ne _ _ (by omega)]
        rw [List.get?_eq_none.mpr (by rw [List.length_map, hb]; omega)]

/-- C1: `backward` computes exactly the spec's backpropagation recurrence:
the output-layer error signal is the elementwise product of the loss
derivative at the final activation and target with the output derivative
at the last pre-activation; the last bias gradient is that signal and the
last weight gradient its outer product with the second-to-last activation;
and for `i` from `L-2` down to `0` the signal becomes
`(Weight[i+1]ᵗ·δ) ⊙ activationDerivative(PreActivations[i])`, with bias
gradient `δ` and weight gradient `δ · Activations[i]ᵗ`. -/
theorem backward_engine_matches_spec (net : MLP)
    (hb : net.biases.length = net.weights.length)
    (hL : 1 ≤ net.weights.length) (a t : Vec) :
    backward net a t = specBackward net a t :=
  backward_eq_specBackward net hb hL a t

/-- Witness for C1 at a concrete network, input and encoded target. -/
theorem backward_engine_matches_spec_witness :
    testNet.biases.length = testNet.weights.length ∧ 1 ≤ testNet.weights.length ∧
    backward testNet [3] [1] = specBackward testNet [3] [1] :=
  ⟨rfl, by decide, backward_engine_matches_spec testNet rfl (by decide) [3] [1]⟩

/-! ### Length and shape lemmas for the vector and matrix operations -/

theorem matVec_length (w : Mat) (a : Vec) : (matVec w a).length = w.length :=
  List.length_map _ _

theorem vAdd_length (u v : Vec) : (vAdd u v).length = min u.length v.length :=
  List.length_zipWith _ _ _

theorem vSub_length (u v : Vec) : (vSub u v).length = min u.length v.length :=
  List.length_zipWith _ _ _

theorem hadamard_length (u v : Vec) : (hadamard u v).length = min u.length v.length :=
  List.length_zipWith _ _ _

theorem vScale_length (c : ℚ) (v : Vec) : (vScale c v).length = v.length :=
  List.length_map _ _

theorem vDivC_length (v : Vec) (c : ℚ) : (vDivC v c).length = v.length :=
  List.length_map _ _

theorem zerosV_length (v : Vec) : (zerosV v).length = v.length :=
  List.length_map _ _

theorem matTvec_length (w : Mat) (v : Vec) :
    (matTvec w v).length = (w.headD []).length := by
  rw [matTvec, List.length_map, List.length_range]

/-- Every element of a `zipWith` comes from a pair of elements. -/
theorem mem_zipWith {α β γ : Type} :
    ∀ (f : α → β → γ) (l1 : List α) (l2 : List β) (c : γ),
    c ∈ List.zipWith f l1 l2 → ∃ a b, a ∈ l1 ∧ b ∈ l2 ∧ c = f a b := by
  intro f l1
  induction l1 with
  | nil =>
    intro l2 c h
    simp at h
  | cons a t ih =>
    intro l2 c h
    cases l2 with
    | nil => simp at h
    | cons b t2 =>
      simp only [List.zipWith_cons_cons, List.mem_cons] at h
      rcases h with rfl | h
      · exact ⟨a, b, by simp, by simp, rfl⟩
      · obtain ⟨a2, b2, ha, hb2, rfl⟩ := ih t2 c h
        exact ⟨a2, b2, by simp [ha], by simp [hb2], rfl⟩

theorem HasShape_mAdd (x y : Mat) (r c : Nat) (hx : HasShape x r c)
    (hy : HasShape y r c) : HasShape (mAdd x y) r c := by
  obtain ⟨hxl, hxr⟩ := hx
  obtain ⟨hyl, hyr⟩ := hy
  constructor
  · rw [mAdd, List.length_zipWith, hxl, hyl, min_self]
  · intro row hrow
    obtain ⟨u, v, hu, hv, rfl⟩ := mem_zipWith vAdd x y row hrow
    rw [vAdd_length, hxr u hu, hyr v hv, min_self]

theorem HasShape_mSub (x y : Mat) (r c : Nat) (hx : HasShape x r c)
    (hy : HasShape y r c) : HasShape (mSub x y) r c := by
  obtain ⟨hxl, hxr⟩ := hx
  obtain ⟨hyl, hyr⟩ := hy
  constructor
  · rw [mSub, List.length_zipWith, hxl, hyl, min_self]
  · intro row hrow
    obtain ⟨u, v, hu, hv, rfl⟩ := mem_zipWith vSub x y row hrow
    rw [vSub_length, hxr u hu, hyr v hv, min_self]

theorem HasShape_mScale (c0 : ℚ) (x : Mat) (r c : Nat) (hx : HasShape x r c) :
    HasShape (mScale c0 x) r c := by
  obtain ⟨hxl, hxr⟩ := hx
  constructor
  · rw [mScale, List.length_map, hxl]
  · intro row hrow
    obtain ⟨u, hu, rfl⟩ := List.mem_map.mp hrow
    rw [vScale_length, hxr u hu]

theorem HasShape_mDivC (x : Mat) (c0 : ℚ) (r c : Nat) (hx : HasShape x r c) :
    HasShape (mDivC x c0) r c := by
  obtain ⟨hxl, hxr⟩ := hx
  constructor
  · rw [mDivC, List.length_map, hxl]
  · intro row hrow
    obtain ⟨u, hu, rfl⟩ := List.mem_map.mp hrow
    rw [vDivC_length, hxr u hu]

theorem HasShape_zerosM (x : Mat) (r c : Nat) (hx : HasShape x r c) :
    HasShape (zerosM x) r c := by
  obtain ⟨hxl, hxr⟩ := hx
  constructor
  · rw [zerosM, List.length_map, hxl]
  · intro row hrow
    obtain ⟨u, hu, rfl⟩ := List.mem_map.mp hrow
    rw [zerosV_length, hxr u hu]

theorem HasShape_outerProd (u v : Vec) : HasShape (outerProd u v) u.length v.length := by
  constructor
  · rw [outerProd, List.length_map]
  · intro row hrow
    obtain ⟨x, _, rfl⟩ := List.mem_map.mp hrow
    rw [List.length_map]

/-- The first row of a matrix with at least one row of length `c`. -/
theorem HasShape_headD (m : Mat) (r c : Nat) (h : HasShape m r c) (hr : 1 ≤ r) :
    (m.headD []).length = c := by
  obtain ⟨hl, hrow⟩ := h
  cases m with
  | nil =>
    rw [List.length_nil] at hl
    omega
  | cons row m2 => exact hrow row (by simp)

/-! ### getD lemmas -/

theorem getD_map {α β : Type} (f : α → β) (l : List α) (i : Nat)
    (h : i < l.length) (d : β) (d2 : α) :
    (l.map f).getD i d = f (l.getD i d2) := by
  rw [List.getD_eq_get?, List.getD_eq_get?, List.get?_map]
  cases hx : l.get? i with
  | none =>
    have := List.get?_eq_none.mp hx
    omega
  | some x => rfl

theorem getD_zipWith {α β γ : Type} :
    ∀ (f : α → β → γ) (l1 : List α) (l2 : List β) (i : Nat),
    i < l1.length → i < l2.length →
    ∀ (d : γ) (d1 : α) (d2 : β),
    (List.zipWith f l1 l2).getD i d = f (l1.getD i d1) (l2.getD i d2) := by
  intro f l1
  induction l1 with
  | nil =>
    intro l2 i h1 h2 d d1 d2
    simp at h1
  | cons a t ih =>
    intro l2 i h1 h2 d d1 d2
    cases l2 with
    | nil => simp at h2
    | cons b t2 =>
      cases i with
      | zero => rfl
      | succ j =>
        simp only [List.zipWith_cons_cons, List.getD_cons_succ]
        exact ih t2 j (by simpa using h1) (by simpa using h2) d d1 d2

theorem getD_zip {α β : Type} :
    ∀ (w : List α) (b : List β) (i : Nat), i < w.length → i < b.length →
    ∀ (dw : α) (db : β), (w.zip b).getD i (dw, db) = (w.getD i dw, b.getD i db) := by
  intro w
  induction w with
  | nil =>
    intro b i h1 h2 dw db
    simp at h1
  | cons a t ih =>
    intro b i h1 h2 dw db
    cases b with
    | nil => simp at h2
    | cons y b2 =>
      cases i with
      | zero => rfl
      | succ j =>
        simp only [List.zip_cons_cons, List.getD_cons_succ]
        exact ih b2 j (by simpa using h1) (by simpa using h2) dw db

theorem getD_drop_one {α : Type} (l : List α) (i : Nat) (d : α) :
    (l.drop 1).getD i d = l.getD (i + 1) d := by
  cases l with
  | nil => simp
  | cons a t => rfl

theorem getD_dropLast {α : Type} (l : List α) (i : Nat) (h : i < l.length - 1) (d : α) :
    l.dropLast.getD i d = l.getD i d := by
  rw [List.getD_eq_get?, List.getD_eq_get?, List.dropLast_eq_take,
    List.get?_take (by omega)]

theorem cons_head_drop_getD (ls : List Nat) (i : Nat) :
    ((ls.getD 0 0) :: ls.drop 1).getD i 0 = ls.getD i 0 := by
  cases i with
  | zero => rfl
  | succ j =>
    rw [List.getD_cons_succ]
    exact getD_drop_one ls j 0

/-- `Forall₂` as a length condition plus a pointwise `getD` condition. -/
theorem forall₂_iff_getD {α β : Type} (R : α → β → Prop) (d1 : α) (d2 : β) :
    ∀ (l1 : List α) (l2 : List β),
    List.Forall₂ R l1 l2 ↔
      (l1.length = l2.length ∧
        ∀ i, i < l1.length → R (l1.getD i d1) (l2.getD i d2)) := by
  intro l1
  induction l1 with
  | nil =>
    intro l2
    cases l2 with
    | nil => simp
    | cons b t => simp
  | cons a t1 ih =>
    intro l2
    cases l2 with
    | nil => simp
    | cons b t2 =>
      rw [List.forall₂_cons]
      constructor
      · rintro ⟨hab, htail⟩
        have h2 := (ih t2).mp htail
        refine ⟨by simp [h2.1], ?_⟩
        intro i hi
        cases i with
        | zero => simpa using hab
        | succ j =>
          have h3 := h2.2 j (by simpa using hi)
          simpa using h3
      · rintro ⟨hlen, hall⟩
        refine ⟨by simpa using hall 0 (by simp), (ih t2).mpr ⟨by simpa using hlen, ?_⟩⟩
        intro j hj
        have h3 := hall (j + 1) (by simpa using hj)
        simpa using h3

/-! ### Shape propagation through the forward trace -/

/-- `ChainShaped` as a length condition plus indexed shape conditions. -/
theorem chainShaped_iff_getD :
    ∀ (l : List (Mat × Vec)) (s0 : Nat) (ss : List Nat),
    ChainShaped l s0 ss ↔
      (l.length = ss.length ∧ ∀ i, i < l.length →
        HasShape (l.getD i ([], [])).1 (ss.getD i 0) ((s0 :: ss).getD i 0) ∧
        ((l.getD i ([], [])).2).length = ss.getD i 0) := by
  intro l
  induction l with
  | nil =>
    intro s0 ss
    simp only [ChainShaped, List.length_nil]
    constructor
    · rintro rfl
      refine ⟨rfl, ?_⟩
      intro i hi
      omega
    · rintro ⟨h, _⟩
      exact List.eq_nil_of_length_eq_zero h.symm
  | cons wb rest ih =>
    intro s0 ss
    cases ss with
    | nil =>
      simp only [ChainShaped, List.length_cons, List.length_nil]
      constructor
      · intro h
        exact h.elim
      · rintro ⟨h, _⟩
        omega
    | cons s1 ss2 =>
      simp only [ChainShaped, List.length_cons]
      rw [ih s1 ss2]
      constructor
      · rintro ⟨hw, hbv, hlen, hall⟩
        refine ⟨by omega, ?_⟩
        intro i hi
        cases i with
        | zero => exact ⟨by simpa using hw, by simpa using hbv⟩
        | succ j =>
          have h3 := hall j (by omega)
          simpa using h3
      · rintro ⟨hlen, hall⟩
        have h0 := hall 0 (by omega)
        refine ⟨by simpa using h0.1, by simpa using h0.2, by omega, ?_⟩
        intro j hj
        have h3 := hall (j + 1) (by omega)
        simpa using h3

/-- A shape-invariant network gives a consecutive shape chain on its
zipped layer list. -/
theorem chainShaped_of_netShaped (ls : List Nat) (net : MLP)
    (h : NetShaped ls net) :
    ChainShaped (net.weights.zip net.biases) (ls.getD 0 0) (ls.drop 1) := by
  obtain ⟨hwl, hbl, hall⟩ := h
  rw [chainShaped_iff_getD]
  constructor
  · rw [List.length_zip, hwl, hbl, min_self, List.length_drop]
  · intro i hi
    rw [List.length_zip, hwl, hbl, min_self] at hi
    have hz := getD_zip net.weights net.biases i (by omega) (by omega)
      ([] : Mat) ([] : Vec)
    rw [hz, getD_drop_one, cons_head_drop_getD]
    exact hall i hi

/-- Shapes of the spec trace: with a consecutive shape chain and a
correctly sized input, every recorded activation and pre-activation has
its layer's dimension. -/
theorem specTrace_shapes (net : MLP) (hfns : FnsShaped net) :
    ∀ (l : List (Mat × Vec)) (s0 : Nat) (ss : List Nat) (a : Vec),
    ChainShaped l s0 ss → a.length = s0 → l ≠ [] →
    List.Forall₂ (fun (v : Vec) s => v.length = s) (specTrace net l a).1 (s0 :: ss) ∧
    List.Forall₂ (fun (v : Vec) s => v.length = s) (specTrace net l a).2 ss := by
  obtain ⟨hact, hactd, hout, houtd, hloss⟩ := hfns
  intro l
  induction l with
  | nil =>
    intro s0 ss a _ _ hne
    exact absurd rfl hne
  | cons wb rest ih =>
    intro s0 ss a hchain ha _
    cases ss with
    | nil => exact hchain.elim
    | cons s1 ss2 =>
      obtain ⟨hw, hbv, hrest⟩ := hchain
      have hz : (vAdd (matVec wb.1 a) wb.2).length = s1 := by
        rw [vAdd_length, matVec_length, hw.1, hbv, min_self]
      cases rest with
      | nil =>
        have hss2 : ss2 = [] := hrest
        subst hss2
        simp only [specTrace]
        constructor
        · exact List.Forall₂.cons ha
            (List.Forall₂.cons (by rw [hout]; exact hz) List.Forall₂.nil)
        · exact List.Forall₂.cons hz List.Forall₂.nil
      | cons wb2 rest2 =>
        have ha2 : (net.activation (vAdd (matVec wb.1 a) wb.2)).length = s1 := by
          rw [hact]
          exact hz
        have hih := ih s1 ss2 (net.activation (vAdd (matVec wb.1 a) wb.2))
          hrest ha2 (by simp)
        simp only [specTrace]
        constructor
        · exact List.Forall₂.cons ha hih.1
        · exact List.Forall₂.cons hz hih.2

/-- Shapes of the recorded activations and pre-activations of the source
trace, in indexed form. -/
theorem trace_shapes (net : MLP) (ls : List Nat) (hsh : NetShaped ls net)
    (hfns : FnsShaped net) (hlen : 2 ≤ ls.length) (a : Vec)
    (ha : a.length = ls.getD 0 0) :
    (∀ i, i ≤ net.weights.length →
      ((get_activations_and_zs net a).1.getD i []).length = ls.getD i 0) ∧
    (∀ i, i < net.weights.length →
      ((get_activations_and_zs net a).2.getD i []).length = ls.getD (i + 1) 0) := by
  have hwl := hsh.1
  have hbl := hsh.2.1
  have hb : net.biases.length = net.weights.length := by omega
  have hL : 1 ≤ net.weights.length := by omega
  have hchain := chainShaped_of_netShaped ls net hsh
  have hne : net.weights.zip net.biases ≠ [] := by
    intro h
    have h2 : (net.weights.zip net.biases).length = 0 := by rw [h]; rfl
    rw [List.length_zip, hb, min_self] at h2
    omega
  have hspec := specTrace_shapes net hfns (net.weights.zip net.biases)
    (ls.getD 0 0) (ls.drop 1) a hchain ha hne
  rw [trace_eq_specTrace net hb hL a]
  obtain ⟨h1, h2⟩ := hspec
  rw [forall₂_iff_getD _ ([] : Vec) (0 : Nat)] at h1 h2
  constructor
  · intro i hi
    have hlen1 : ((ls.getD 0 0) :: ls.drop 1).length = ls.length := by
      simp only [List.length_cons, List.length_drop]
      omega
    have hi2 : i < (specTrace net (net.weights.zip net.biases) a).1.length := by
      rw [h1.1, hlen1]
      omega
    have h3 := h1.2 i hi2
    rw [cons_head_drop_getD] at h3
    exact h3
  · intro i hi
    have hi2 : i < (specTrace net (net.weights.zip net.biases) a).2.length := by
      rw [h2.1, List.length_drop]
      omega
    have h3 := h2.2 i hi2
    rw [getD_drop_one] at h3
    exact h3

/-! ### Shapes of the backward gradients -/

/-- Within bounds, `getD` does not depend on its default. -/
theorem getD_irrel {α : Type} (l : List α) (i : Nat) (h : i < l.length)
    (d1 d2 : α) : l.getD i d1 = l.getD i d2 := by
  rw [List.getD_eq_get?, List.getD_eq_get?]
  cases hx : l.get? i with
  | none =>
    have h2 := List.get?_eq_none.mp hx
    omega
  | some x => rfl

/-- `getLastD` is `getD` at the last index. -/
theorem getLastD_eq_getD {α : Type} :
    ∀ (l : List α) (d : α), l.getLastD d = l.getD (l.length - 1) d := by
  intro l
  induction l with
  | nil =>
    intro d
    rfl
  | cons a t ih =>
    intro d
    rw [List.getLastD_cons]
    cases t with
    | nil => rfl
    | cons b t2 =>
      rw [ih a]
      rw [show (a :: b :: t2).length - 1 = ((b :: t2).length - 1) + 1 from by
        simp [List.length_cons]]
      rw [List.getD_cons_succ]
      exact getD_irrel _ _ (by simp only [List.length_cons]; omega) a d

/-- `getD` of a `range`-map, within bounds. -/
theorem getD_range_map {β : Type} (f : Nat → β) (L i : Nat) (h : i < L) (d : β) :
    ((List.range L).map f).getD i d = f i := by
  rw [List.getD_eq_get?, get?_range_map, if_pos h]
  rfl

/-- Length of the backpropagated error signal `j` layers below the output
layer. -/
theorem deltaDown_length (net : MLP) (ls : List Nat) (zs : List Vec) (dtop : Vec)
    (hw : ∀ i, i < net.weights.length →
      HasShape (net.weights.getD i []) (ls.getD (i + 1) 0) (ls.getD i 0))
    (hz : ∀ i, i < net.weights.length → (zs.getD i []).length = ls.getD (i + 1) 0)
    (hpos : ∀ i, i < ls.length → 1 ≤ ls.getD i 0)
    (hls : ls.length = net.weights.length + 1)
    (hactd : ∀ v, (net.activation_derv v).length = v.length)
    (hdtop : dtop.length = ls.getD net.weights.length 0) :
    ∀ j, j ≤ net.weights.length - 1 →
    (deltaDown net zs dtop j).length = ls.getD (net.weights.length - j) 0 := by
  intro j hj
  cases j with
  | zero => simpa [deltaDown] using hdtop
  | succ j =>
    rw [deltaDown, hadamard_length, matTvec_length, hactd]
    have hW := hw (net.weights.length - 1 - j) (by omega)
    have hhead := HasShape_headD _ _ _ hW (hpos _ (by omega))
    rw [hhead, hz (net.weights.length - 2 - j) (by omega)]
    rw [show net.weights.length - 2 - j + 1 = net.weights.length - 1 - j from by omega]
    rw [min_self]
    rw [show net.weights.length - (j + 1) = net.weights.length - 1 - j from by omega]

/-- Gradient shape parity: for a shape-invariant network with
shape-respecting pluggable functions and a correctly sized input, the
Backward Engine's outputs have exactly the shapes of the weights and
biases. -/
theorem backward_shapes (net : MLP) (ls : List Nat) (hsh : NetShaped ls net)
    (hfns : FnsShaped net) (hpos : ∀ i, i < ls.length → 1 ≤ ls.getD i 0)
    (hlen : 2 ≤ ls.length) (a t : Vec) (ha : a.length = ls.getD 0 0) :
    (backward net a t).1.length = ls.length - 1 ∧
    (backward net a t).2.length = ls.length - 1 ∧
    ∀ i, i < ls.length - 1 →
      HasShape ((backward net a t).1.getD i []) (ls.getD (i + 1) 0) (ls.getD i 0) ∧
      ((backward net a t).2.getD i []).length = ls.getD (i + 1) 0 := by
  have hwl := hsh.1
  have hbl := hsh.2.1
  have hall := hsh.2.2
  have hb : net.biases.length = net.weights.length := by omega
  have hL : 1 ≤ net.weights.length := by omega
  have hls : ls.length = net.weights.length + 1 := by omega
  have htr := trace_shapes net ls hsh hfns hlen a ha
  have htl := trace_lengths net hb hL a
  obtain ⟨hact, hactd, hout, houtd, hloss⟩ := hfns
  rw [backward_eq_specBackward net hb hL a t]
  simp only [specBackward, outputDelta]
  set activsT := (get_activations_and_zs net a).1 with hA
  set zsT := (get_activations_and_zs net a).2 with hZ
  set dtop := hadamard (net.loss_derv (activsT.getLastD []) t)
    (net.output_derv (zsT.getLastD [])) with hD
  have haL : (activsT.getLastD []).length = ls.getD net.weights.length 0 := by
    rw [getLastD_eq_getD, htl.1]
    rw [show net.weights.length + 1 - 1 = net.weights.length from by omega]
    exact htr.1 net.weights.length (le_refl _)
  have hzL : (zsT.getLastD []).length = ls.getD net.weights.length 0 := by
    rw [getLastD_eq_getD, htl.2]
    have h3 := htr.2 (net.weights.length - 1) (by omega)
    rw [show net.weights.length - 1 + 1 = net.weights.length from by omega] at h3
    exact h3
  have hdtop : dtop.length = ls.getD net.weights.length 0 := by
    rw [hD, hadamard_length, hloss, houtd, haL, hzL, min_self]
  have hdd := deltaDown_length net ls zsT dtop
    (fun i hi => (hall i (by omega)).1)
    (fun i hi => htr.2 i hi) hpos hls hactd hdtop
  refine ⟨?_, ?_, ?_⟩
  · rw [List.length_map, List.length_range]
    omega
  · rw [List.length_map, List.length_range]
    omega
  · intro i hi
    have hiL : i < net.weights.length := by omega
    rw [getD_range_map _ _ _ hiL, getD_range_map _ _ _ hiL]
    have hdel := hdd (net.weights.length - 1 - i) (by omega)
    rw [show net.weights.length - (net.weights.length - 1 - i) = i + 1 from by
      omega] at hdel
    constructor
    · have hout2 := HasShape_outerProd
        (deltaDown net zsT dtop (net.weights.length - 1 - i)) (activsT.getD i [])
      rw [hdel, htr.1 i (by omega)] at hout2
      exact hout2
    · exact hdel

/-! ### Shape preservation of construction and of the batch update -/

/-- Construction produces exactly the shapes of the spec, given initializer
functions that honour their contract. -/
theorem mkMLP_shaped (ls : List Nat) (f1 : Vec → Vec) (f2 : Vec → Vec → Vec)
    (f3 f4 f5 : Vec → Vec) (f6 : ℚ → Vec) (wi : Nat → Nat → Mat)
    (bi : Nat → Vec) (hinit : InitsShaped wi bi) :
    NetShaped ls (mkMLP ls f1 f2 f3 f4 f5 f6 wi bi) := by
  obtain ⟨hwi, hbi⟩ := hinit
  refine ⟨?_, ?_, ?_⟩
  · simp [mkMLP, init_weights]
  · simp [mkMLP, init_biases]
  · intro i hi
    have hplen : ((ls.drop 1).zip ls.dropLast).length = ls.length - 1 := by
      simp [List.length_zip, List.length_drop, List.length_dropLast]
    constructor
    · show HasShape ((init_weights wi ls).getD i []) _ _
      rw [init_weights,
        getD_map _ _ i (by rw [hplen]; omega) ([] : Mat) ((0 : Nat), (0 : Nat)),
        getD_zip (ls.drop 1) ls.dropLast i
          (by simp only [List.length_drop]; omega)
          (by simp only [List.length_dropLast]; omega) 0 0,
        getD_drop_one, getD_dropLast ls i (by omega)]
      exact hwi _ _
    · show ((init_biases bi ls).getD i []).length = _
      rw [init_biases, getD_map _ _ i (by simp only [List.length_drop]; omega) ([] : Vec) 0,
        getD_drop_one]
      exact hbi _

/-- Accumulating per-example Backward Engine gradients into shape-correct
accumulators keeps them shape-correct. -/
theorem accumulate_shaped (net : MLP) (ls : List Nat) (hsh : NetShaped ls net)
    (hfns : FnsShaped net) (hpos : ∀ i, i < ls.length → 1 ≤ ls.getD i 0)
    (hlen : 2 ≤ ls.length) :
    ∀ (ps : List (Vec × Vec)) (gw : List Mat) (gb : List Vec),
    (∀ p ∈ ps, (p.1 : Vec).length = ls.getD 0 0) →
    NetShaped ls { net with weights := gw, biases := gb } →
    NetShaped ls { net with
      weights := (ps.foldl (fun acc p =>
        (List.zipWith mAdd acc.1 (backward net p.1 p.2).1,
         List.zipWith vAdd acc.2 (backward net p.1 p.2).2)) (gw, gb)).1,
      biases := (ps.foldl (fun acc p =>
        (List.zipWith mAdd acc.1 (backward net p.1 p.2).1,
         List.zipWith vAdd acc.2 (backward net p.1 p.2).2)) (gw, gb)).2 } := by
  intro ps
  induction ps with
  | nil =>
    intro gw gb _ h
    exact h
  | cons p ps2 ih =>
    intro gw gb hmem h
    obtain ⟨hgwl, hgbl, hgall⟩ := h
    dsimp only at hgwl hgbl hgall
    have hbw := backward_shapes net ls hsh hfns hpos hlen p.1 p.2
      (hmem p (by simp))
    obtain ⟨hbw1, hbw2, hbwall⟩ := hbw
    rw [List.foldl_cons]
    apply ih
    · intro q hq
      exact hmem q (by simp [hq])
    · refine ⟨?_, ?_, ?_⟩
      · show (List.zipWith mAdd gw (backward net p.1 p.2).1).length = ls.length - 1
        rw [List.length_zipWith, hgwl, hbw1, min_self]
      · show (List.zipWith vAdd gb (backward net p.1 p.2).2).length = ls.length - 1
        rw [List.length_zipWith, hgbl, hbw2, min_self]
      · intro i hi
        have hg := hgall i hi
        have hbwi := hbwall i hi
        constructor
        · show HasShape ((List.zipWith mAdd gw (backward net p.1 p.2).1).getD i []) _ _
          rw [getD_zipWith mAdd gw _ i (by omega) (by omega) ([] : Mat) ([] : Mat)
            ([] : Mat)]
          exact HasShape_mAdd _ _ _ _ hg.1 hbwi.1
        · show ((List.zipWith vAdd gb (backward net p.1 p.2).2).getD i []).length = _
          rw [getD_zipWith vAdd gb _ i (by omega) (by omega) ([] : Vec) ([] : Vec)
            ([] : Vec)]
          rw [vAdd_length, hg.2, hbwi.2, min_self]

/-- The mini-batch update step preserves the shape invariant of the
Parameter Store. -/
theorem process_batch_shaped (net : MLP) (ls : List Nat) (hsh : NetShaped ls net)
    (hfns : FnsShaped net) (hpos : ∀ i, i < ls.length → 1 ≤ ls.getD i 0)
    (hlen : 2 ≤ ls.length) (batch : List Row) (lr : ℚ)
    (hbatch : ∀ r ∈ batch, (r.1 : Vec).length = ls.getD 0 0) :
    NetShaped ls (process_batch net batch lr) := by
  obtain ⟨hwl, hbl, hall⟩ := hsh
  have hzeros : NetShaped ls { net with
      weights := net.weights.map zerosM, biases := net.biases.map zerosV } := by
    refine ⟨by simpa using hwl, by simpa using hbl, ?_⟩
    intro i hi
    constructor
    · show HasShape ((net.weights.map zerosM).getD i []) _ _
      rw [getD_map _ _ i (by omega) ([] : Mat) ([] : Mat)]
      exact HasShape_zerosM _ _ _ (hall i hi).1
    · show ((net.biases.map zerosV).getD i []).length = _
      rw [getD_map _ _ i (by omega) ([] : Vec) ([] : Vec)]
      rw [zerosV_length]
      exact (hall i hi).2
  have hmem : ∀ p ∈ (batch.map Prod.fst).zip
      ((batch.map Prod.snd).map net.target_fit), (p.1 : Vec).length = ls.getD 0 0 := by
    intro p hp
    have h1 := (List.of_mem_zip hp).1
    obtain ⟨r, hr, hre⟩ := List.mem_map.mp h1
    rw [← hre]
    exact hbatch r hr
  have hacc := accumulate_shaped net ls ⟨hwl, hbl, hall⟩ hfns hpos hlen
    ((batch.map Prod.fst).zip ((batch.map Prod.snd).map net.target_fit))
    (net.weights.map zerosM) (net.biases.map zerosV) hmem hzeros
  obtain ⟨hal, hbl2, haall⟩ := hacc
  dsimp only at hal hbl2 haall
  simp only [process_batch]
  refine ⟨?_, ?_, ?_⟩
  · show (List.zipWith _ net.weights _).length = ls.length - 1
    rw [List.length_zipWith, hwl, hal, min_self]
  · show (List.zipWith _ net.biases _).length = ls.length - 1
    rw [List.length_zipWith, hbl, hbl2, min_self]
  · intro i hi
    have hg := haall i hi
    constructor
    · show HasShape ((List.zipWith _ net.weights _).getD i []) _ _
      rw [getD_zipWith _ net.weights _ i (by omega) (by omega) ([] : Mat) ([] : Mat)
        ([] : Mat)]
      exact HasShape_mSub _ _ _ _ (hall i hi).1
        (HasShape_mDivC _ _ _ _ (HasShape_mScale _ _ _ _ hg.1))
    · show ((List.zipWith _ net.biases _).getD i []).length = _
      rw [getD_zipWith _ net.biases _ i (by omega) (by omega) ([] : Vec) ([] : Vec)
        ([] : Vec)]
      rw [vSub_length, vDivC_length, vScale_length, (hall i hi).2, hg.2, min_self]

/-- The concrete test initializers honour the initializer shape contract. -/
theorem initsShaped_test : InitsShaped onesInit zerosInit := by
  constructor
  · intro n m
    constructor
    · rw [onesInit, List.length_replicate]
    · intro row hrow
      rw [List.eq_of_mem_replicate hrow, List.length_replicate]
  · intro n
    rw [zerosInit, List.length_replicate]

/-! ### C7 -/

/-- C7: for a valid LayerSizes sequence (length ≥ 2, positive sizes) and
shape-honouring initializers, the constructed network holds exactly `L`
weight matrices and `L` bias vectors with `Weight[i]` of shape
`ls[i+1] × ls[i]` and `Bias[i]` of length `ls[i+1]`; the forward pass,
the trace and the backward pass leave these counts and shapes untouched,
and the mini-batch update step preserves them (for shape-respecting
pluggable functions and correctly sized batch rows). -/
theorem shape_invariants_hold (ls : List Nat) (hlen : 2 ≤ ls.length)
    (hpos : ∀ i, i < ls.length → 1 ≤ ls.getD i 0)
    (f1 : Vec → Vec) (f2 : Vec → Vec → Vec) (f3 f4 f5 : Vec → Vec)
    (f6 : ℚ → Vec) (wi : Nat → Nat → Mat) (bi : Nat → Vec)
    (hinit : InitsShaped wi bi) :
    NetShaped ls (mkMLP ls f1 f2 f3 f4 f5 f6 wi bi) ∧
    (∀ (net : MLP) (a : Vec), NetShaped ls net →
      NetShaped ls (feed_forwardS net a).2) ∧
    (∀ (net : MLP) (a : Vec), NetShaped ls net →
      NetShaped ls (get_activations_and_zsS net a).2) ∧
    (∀ (net : MLP) (a t : Vec), NetShaped ls net →
      NetShaped ls (backwardS net a t).2) ∧
    (∀ (net : MLP) (batch : List Row) (lr : ℚ), NetShaped ls net →
      FnsShaped net → (∀ r ∈ batch, (r.1 : Vec).length = ls.getD 0 0) →
      NetShaped ls (process_batch net batch lr)) :=
  ⟨mkMLP_shaped ls f1 f2 f3 f4 f5 f6 wi bi hinit,
   fun _ _ h => h, fun _ _ h => h, fun _ _ _ h => h,
   fun net batch lr h hf hbatch =>
     process_batch_shaped net ls h hf hpos hlen batch lr hbatch⟩

/-- Witness for C7 at the concrete sizes `[1, 2, 1]`, the concrete
initializers, network and a one-row batch. -/
theorem shape_invariants_hold_witness :
    2 ≤ ([1, 2, 1] : List Nat).length ∧
    (∀ i, i < ([1, 2, 1] : List Nat).length → 1 ≤ ([1, 2, 1] : List Nat).getD i 0) ∧
    InitsShaped onesInit zerosInit ∧
    (NetShaped [1, 2, 1] (mkMLP [1, 2, 1] idActiv diffLoss idActiv idActiv idActiv
        singletonFit onesInit zerosInit) ∧
      (∀ (net : MLP) (a : Vec), NetShaped [1, 2, 1] net →
        NetShaped [1, 2, 1] (feed_forwardS net a).2) ∧
      (∀ (net : MLP) (a : Vec), NetShaped [1, 2, 1] net →
        NetShaped [1, 2, 1] (get_activations_and_zsS net a).2) ∧
      (∀ (net : MLP) (a t : Vec), NetShaped [1, 2, 1] net →
        NetShaped [1, 2, 1] (backwardS net a t).2) ∧
      (∀ (net : MLP) (batch : List Row) (lr : ℚ), NetShaped [1, 2, 1] net →
        FnsShaped net → (∀ r ∈ batch, (r.1 : Vec).length = ([1, 2, 1] : List Nat).getD 0 0) →
        NetShaped [1, 2, 1] (process_batch net batch lr))) :=
  ⟨by decide, by decide, initsShaped_test,
   shape_invariants_hold [1, 2, 1] (by decide) (by decide) idActiv diffLoss
     idActiv idActiv idActiv singletonFit onesInit zerosInit initsShaped_test⟩
